import Mathlib

/-!
Verification of the airport-security queue simulation repository.

The development shallowly embeds the two pure cores of the repository:

* `calculateTheoretical` (src/src/components/TheoreticalResults.tsx), the
  closed-form M/M/c model, over exact rationals;
* the fixed-time-step simulation engine `runSimulation` together with its
  helpers `truncatedNormal` and `calculateWaitingTimeDistribution`
  (src/unnamed/part_001).

JavaScript numbers are idealised as `ℚ`.  Randomness (`Math.random()`) is
modelled by an injected stream `g : ℕ → ℚ` of draws consumed in program
order, exactly as the spec's design notes prescribe for a faithful
reimplementation.  The transcendental library functions `Math.log`,
`Math.sqrt`, `Math.cos` and the constant `Math.PI` are injected as a record
of rational-valued stand-ins (`MathFns`); no theorem below depends on their
values.  The logarithm is additionally guarded so that it is defined only
for positive arguments (`logTotal`): applying it elsewhere is the error
branch of the embedding.  The unbounded `while`/`do-while` loops of the
source are given explicit fuel and return `Option`, with `none` for fuel
exhaustion or an undefined logarithm.
-/

/-- Simulation parameters, from the `SimulationParams` interface of
src/unnamed/part_001 (identical to `SimParams` in the types file).
`numStations` is a server count, embedded as `ℕ`. -/
structure SimParams where
  numStations : ℕ
  arrivalRate : ℚ
  mu1 : ℚ
  sigma1 : ℚ
  mu2 : ℚ
  sigma2 : ℚ
  screenProb : ℚ
  simulationTime : ℚ
  deriving Repr, DecidableEq

/-- Result record of `calculateTheoretical`
(src/src/components/TheoreticalResults.tsx). -/
structure TheoreticalResults where
  utilization : ℚ
  avgQueueLength : ℚ
  avgWaitTime : ℚ
  avgSystemTime : ℚ
  deriving Repr, DecidableEq

/-- Source `factorial` (TheoreticalResults.tsx):
`n <= 1 ? 1 : n * factorial(n - 1)`. -/
def factorial : ℕ → ℚ
  | 0 => 1
  | n + 1 => if n + 1 ≤ 1 then 1 else (n + 1 : ℚ) * factorial n

/-- Source `calculateTheoretical` (TheoreticalResults.tsx, lines 16-38).
`p0_sum` is `Array.from({length: c}, (_, k) => (c·ρ)^k / k!)` reduced with
initial value `0`. -/
def calculateTheoretical (params : SimParams) : TheoreticalResults :=
  let lambda : ℚ := params.arrivalRate / 60
  let mu : ℚ := 1 / (params.mu1 / 1000)
  let c : ℕ := params.numStations
  let rho : ℚ := lambda / (c * mu)
  let p0_sum : List ℚ := (List.range c).map (fun k => (c * rho) ^ k / factorial k)
  let p0_final : ℚ := (c * rho) ^ c / (factorial c * (1 - rho))
  let p0 : ℚ := 1 / (p0_sum.foldl (· + ·) 0 + p0_final)
  let erlangC : ℚ := ((c * rho) ^ c * p0) / (factorial c * (1 - rho))
  let Lq : ℚ := erlangC * rho / (1 - rho)
  let Wq : ℚ := Lq / lambda
  let Ws : ℚ := Wq + 1 / mu
  { utilization := rho
    avgQueueLength := Lq
    avgWaitTime := Wq
    avgSystemTime := Ws }

/-- The spec's closed form for the theoretical model (spec.md §4.2), written
from the spec's words: `λ = arrivalRate/60`, `μ = 1000/mu1`,
`ρ = λ/(cμ)`, `P0 = [Σ_{k=0}^{c-1} (cρ)^k/k! + (cρ)^c/(c!(1-ρ))]⁻¹`,
`C(c,ρ) = (cρ)^c·P0/(c!(1-ρ))`, `Lq = Cρ/(1-ρ)`, `Wq = Lq/λ`,
`Ws = Wq + 1/μ`, with `k!` the mathematical factorial. -/
def calculateTheoreticalSpec (params : SimParams) : TheoreticalResults :=
  let lambda : ℚ := params.arrivalRate / 60
  let mu : ℚ := 1000 / params.mu1
  let c : ℕ := params.numStations
  let rho : ℚ := lambda / (c * mu)
  let P0 : ℚ :=
    ((Finset.range c).sum (fun k => (c * rho) ^ k / (Nat.factorial k : ℚ)) +
      (c * rho) ^ c / ((Nat.factorial c : ℚ) * (1 - rho)))⁻¹
  let C : ℚ := ((c * rho) ^ c * P0) / ((Nat.factorial c : ℚ) * (1 - rho))
  let Lq : ℚ := C * rho / (1 - rho)
  let Wq : ℚ := Lq / lambda
  let Ws : ℚ := Wq + 1 / mu
  { utilization := rho
    avgQueueLength := Lq
    avgWaitTime := Wq
    avgSystemTime := Ws }

/-- The parameter record of the spec's "Theoretical stability" test:
`arrivalRate = 10`, `mu1 = 30000`, `numStations = 2` (remaining fields at
the repository's defaults; `calculateTheoretical` does not read them). -/
def stabilityTestParams : SimParams :=
  { numStations := 2, arrivalRate := 10, mu1 := 30000, sigma1 := 10,
    mu2 := 120, sigma2 := 120, screenProb := 3/100, simulationTime := 3600 }

/-! ## Waiting-time histogram (`calculateWaitingTimeDistribution`)

The source computes `binIndex = Math.min(Math.floor(time / binSize), 19)`
and then `counts[binIndex]++`.  Everything is exact rational arithmetic
except when `binSize = 0` (all waiting times equal): JavaScript division
then produces `NaN` (for `time = 0`) or `±Infinity`, `Math.floor` and
`Math.min` propagate them (`Math.min(NaN, 19) = NaN`,
`Math.min(-Infinity, 19) = -Infinity`, `Math.min(Infinity, 19) = 19`),
and an array write at index `NaN` or `-Infinity` touches none of the 20
numeric slots.  `BinIndex` records exactly these outcomes. -/

/-- Outcome of the bin-index computation: an integer index, or the
IEEE-754 exceptional values `NaN` / `-Infinity` that arise when
`binSize = 0` (a `+Infinity` quotient is already clamped to 19 by
`Math.min`). -/
inductive BinIndex where
  | idx : ℤ → BinIndex
  | nan : BinIndex
  | negInf : BinIndex
  deriving Repr, DecidableEq

/-- Embedding of `Math.min(Math.floor(time / binSize), numBins - 1)` with
`numBins = 20`, including the JavaScript behaviour of `time / 0`:
`0/0 = NaN`, `t/0 = +Infinity` for `t > 0` (floored and clamped to 19),
`t/0 = -Infinity` for `t < 0`. -/
def binIndexJs (time binSize : ℚ) : BinIndex :=
  if binSize = 0 then
    if time = 0 then BinIndex.nan
    else if 0 < time then BinIndex.idx 19
    else BinIndex.negInf
  else BinIndex.idx (min ⌊time / binSize⌋ 19)

/-- Embedding of `counts[binIndex]++`: a write at a non-negative integer
index increments that slot (`List.set` is a no-op past the end, and the
computed index never exceeds 19 anyway); a write at a negative, `NaN` or
`-Infinity` index changes none of the numeric slots. -/
def bumpCount (counts : List ℕ) : BinIndex → List ℕ
  | BinIndex.idx i =>
      if 0 ≤ i then counts.set i.toNat (counts.getD i.toNat 0 + 1) else counts
  | _ => counts

/-- Histogram record from src/unnamed/part_001 (`WaitingTimeDistribution`). -/
structure WaitingTimeDistribution where
  bins : List ℚ
  counts : List ℕ
  deriving Repr, DecidableEq

/-- Embedding of `Math.max(...waitingTimes)`: the maximum entry of the
list.  (JavaScript returns `-Infinity` on an empty call; the empty case is
seeded with the default head `0` here and is exercised by no claim, both
of which quantify over non-empty samples.) -/
def jsMax (l : List ℚ) : ℚ := l.foldl max (l.headD 0)

/-- Source `calculateWaitingTimeDistribution` (src/unnamed/part_001,
lines 137-150). -/
def calculateWaitingTimeDistribution (waitingTimes : List ℚ) :
    WaitingTimeDistribution :=
  let numBins : ℕ := 20
  let mx : ℚ := jsMax waitingTimes
  let binSize : ℚ := mx / numBins
  let bins : List ℚ := (List.range numBins).map (fun i => (i : ℚ) * binSize)
  let counts : List ℕ :=
    waitingTimes.foldl (fun cs t => bumpCount cs (binIndexJs t binSize))
      (List.replicate numBins 0)
  { bins := bins, counts := counts }

/-! ## Random sampling (`truncatedNormal` and the exponential draw)

`Math.random()` is an injected stream `g : ℕ → ℚ` consumed in program
order (`n` is the next unread position).  `Math.log`, `Math.sqrt`,
`Math.cos`, `Math.PI` are injected stand-ins (`MathFns`); the logarithm is
additionally guarded as a map defined only for positive arguments
(`logTotal`), so applying it to `0` is the embedding's error branch.  The
source's unbounded `while`/`do-while` loops take explicit fuel. -/

/-- Injected stand-ins for the transcendental `Math` functions used by the
source.  No theorem below depends on their values. -/
structure MathFns where
  log : ℚ → ℚ
  sqrt : ℚ → ℚ
  cos : ℚ → ℚ
  pi : ℚ

/-- The logarithm of the embedding, defined only for positive arguments:
`Math.log` applied anywhere else is the error branch (`none`). -/
def logTotal (m : MathFns) (x : ℚ) : Option ℚ :=
  if 0 < x then some (m.log x) else none

/-- The exponential inter-arrival draw `-Math.log(u) / rate`
(src/unnamed/part_001, lines 192 and 212). -/
def expSample (m : MathFns) (rate u : ℚ) : Option ℚ :=
  (logTotal m u).map (fun l => -l / rate)

/-- The loop `let u = 0; while (u === 0) u = Math.random();` of
`truncatedNormal`: draws from the stream until a non-zero value appears,
with fuel bounding the number of draws. -/
def sampleNonzero (g : ℕ → ℚ) (n : ℕ) : ℕ → Option (ℚ × ℕ)
  | 0 => none
  | fuel + 1 =>
      if g n = 0 then sampleNonzero g (n + 1) fuel else some (g n, n + 1)

/-- One Box-Muller draw of `truncatedNormal` (src/unnamed/part_001,
lines 128-131): resample `u` and `v` until non-zero, then
`Math.sqrt(-2 * Math.log(u)) * Math.cos(2 * Math.PI * v)`. -/
def boxMullerDraw (m : MathFns) (g : ℕ → ℚ) (n fuel : ℕ) : Option (ℚ × ℕ) :=
  match sampleNonzero g n fuel with
  | none => none
  | some (u, n1) =>
    match sampleNonzero g n1 fuel with
    | none => none
    | some (v, n2) =>
      match logTotal m u with
      | none => none
      | some lu => some (m.sqrt (-2 * lu) * m.cos (2 * m.pi * v), n2)

/-- Source `truncatedNormal` (src/unnamed/part_001, lines 125-135): scale
and shift a Box-Muller variate, rejecting and redrawing while the result
is negative.  The outer `do ... while (value < 0)` takes its own fuel. -/
def truncatedNormal (m : MathFns) (mu sigma : ℚ) (g : ℕ → ℚ)
    (innerFuel : ℕ) (n : ℕ) : ℕ → Option (ℚ × ℕ)
  | 0 => none
  | fuel + 1 =>
    match boxMullerDraw m g n innerFuel with
    | none => none
    | some (z, n') =>
      let value := mu + sigma * z
      if value < 0 then truncatedNormal m mu sigma g innerFuel n' fuel
      else some (value, n')

/-- Concrete stand-ins for the transcendental functions, used by the
witness runs (`log` is constantly `-7/10 ≈ ln(1/2)`). -/
def demoMathFns : MathFns :=
  { log := fun _ => -7/10, sqrt := fun _ => 0, cos := fun _ => 0, pi := 3 }

/-- Concrete random stream for the witness runs: every draw is `1/2`. -/
def demoStream : ℕ → ℚ := fun _ => 1/2

/-! ## Simulation engine (`runSimulation`)

The fixed-step loop of src/unnamed/part_001, lines 152-295.  The mutable
run-local variables become one explicit `SimState` threaded through a step
function, as the spec's design notes prescribe.  `primaryCompleted` is a
ghost observer (not a variable of the source): it counts the completion
branch `station.remainingTime <= 0` clearing a held traveler, i.e. the
travelers that completed primary service, which the conservation claim
speaks about. -/

/-- Traveler record (src/unnamed/part_001, lines 87-92).  The source's
optional `endServiceTime` field is never assigned anywhere in the code and
is omitted. -/
structure Traveler where
  arrivalTime : ℚ
  needsScreening : Bool
  startServiceTime : Option ℚ
  deriving Repr, DecidableEq

/-- Station record (src/unnamed/part_001, lines 94-99). -/
structure Station where
  busy : Bool
  remainingTime : ℚ
  traveler : Option Traveler
  queue : List Traveler
  deriving Repr, DecidableEq

/-- Time-series entry (src/unnamed/part_001, lines 101-106). -/
structure TimeSeriesPoint where
  time : ℚ
  queueLengths : List ℕ
  seniorQueueLength : ℕ
  totalQueueLength : ℕ
  deriving Repr, DecidableEq

/-- The fixed step of 0.1 seconds (src/unnamed/part_001, line 164). -/
def stepSize : ℚ := 1/10

/-- The shortest-queue scan (src/unnamed/part_001, lines 201-204), applied
to the snapshot of queue lengths:
`map((s, i) => ({length, index})).reduce((min, curr) => curr.length < min.length ? curr : min).index`.
JavaScript `reduce` without an initial value throws on an empty array; the
empty case (only reachable with `numStations = 0`, outside the parameter
contract) is mapped to index `0`. -/
def shortestQueueIndex (lengths : List ℕ) : ℕ :=
  match lengths.enum.map (fun p => (p.2, p.1)) with
  | [] => 0
  | h :: t => (t.foldl (fun mn curr => if curr.1 < mn.1 then curr else mn) h).2

/-- The run-local mutable variables of `runSimulation` as one state record.
`rngIndex` is the next unread position of the injected random stream;
`primaryCompleted` is the ghost completion counter described above. -/
structure SimState where
  primaryStations : List Station
  seniorStation : Station
  timeSeries : List TimeSeriesPoint
  waitingTimes : List ℚ
  primaryServiceTimes : List ℚ
  seniorServiceTimes : List ℚ
  stationBusyTime : List ℚ
  seniorBusyTime : ℚ
  timeToNextArrival : ℚ
  rngIndex : ℕ
  primaryCompleted : ℕ
  deriving Repr, DecidableEq

/-- Accumulator threaded through the per-station `forEach` over the
primary stations (src/unnamed/part_001, lines 216-242): the senior queue
receiving screened travelers, the sample lists, the stream position, and
the ghost completion counter. -/
structure PrimCtx where
  seniorQueue : List Traveler
  waitingTimes : List ℚ
  primaryServiceTimes : List ℚ
  rngIndex : ℕ
  completed : ℕ
  deriving Repr, DecidableEq

/-- Processing of one primary station for one step
(src/unnamed/part_001, lines 216-242): if busy, decrement `remainingTime`
by `stepSize`, accumulate busy time, and on `remainingTime <= 0` push a
screened traveler to the senior queue and clear the station
(`station.traveler?.needsScreening` is falsy for a null traveler); then, if
idle with a non-empty queue, shift the head, draw a truncated-normal
service time, occupy the station, stamp `startServiceTime`, and record the
waiting time and service time. -/
def processPrimaryStation (m : MathFns) (g : ℕ → ℚ) (fuel : ℕ)
    (mu1 sigma1 currentTime : ℚ) (st : Station) (bt : ℚ) (c : PrimCtx) :
    Option (Station × ℚ × PrimCtx) :=
  let step1 : Station × ℚ × PrimCtx :=
    if st.busy then
      let remaining := st.remainingTime - stepSize
      let bt' := bt + stepSize
      if remaining ≤ 0 then
        let c' :=
          match st.traveler with
          | some t =>
              if t.needsScreening then
                { c with seniorQueue := c.seniorQueue ++ [t],
                         completed := c.completed + 1 }
              else { c with completed := c.completed + 1 }
          | none => c
        ({ st with busy := false, remainingTime := remaining, traveler := none },
          bt', c')
      else ({ st with remainingTime := remaining }, bt', c)
    else (st, bt, c)
  match step1.1.busy, step1.1.queue with
  | false, t :: rest =>
    match truncatedNormal m mu1 sigma1 g fuel step1.2.2.rngIndex fuel with
    | none => none
    | some (serviceTime, n') =>
      some ({ busy := true, remainingTime := serviceTime,
              traveler := some { t with startServiceTime := some currentTime },
              queue := rest },
            step1.2.1,
            { step1.2.2 with
                waitingTimes := step1.2.2.waitingTimes ++ [currentTime - t.arrivalTime],
                primaryServiceTimes := step1.2.2.primaryServiceTimes ++ [serviceTime],
                rngIndex := n' })
  | _, _ => some step1

/-- The `forEach` over the primary stations in station-index order, each
paired with its entry of `stationBusyTime`. -/
def processPrimaries (m : MathFns) (g : ℕ → ℚ) (fuel : ℕ)
    (mu1 sigma1 currentTime : ℚ) :
    List (Station × ℚ) → PrimCtx → Option (List (Station × ℚ) × PrimCtx)
  | [], c => some ([], c)
  | (st, bt) :: rest, c =>
    match processPrimaryStation m g fuel mu1 sigma1 currentTime st bt c with
    | none => none
    | some (st', bt', c') =>
      match processPrimaries m g fuel mu1 sigma1 currentTime rest c' with
      | none => none
      | some (pairs, c'') => some ((st', bt') :: pairs, c'')

/-- Processing of the senior station for one step (src/unnamed/part_001,
lines 244-262): the same busy/decrement/complete logic (no screening
re-dispatch), then the same dequeue/start-service logic with `mu2`,
`sigma2`; only the service duration is recorded, and no `startServiceTime`
is stamped. -/
def processSenior (m : MathFns) (g : ℕ → ℚ) (fuel : ℕ) (mu2 sigma2 : ℚ)
    (st : Station) (sbt : ℚ) (svc : List ℚ) (n : ℕ) :
    Option (Station × ℚ × List ℚ × ℕ) :=
  let step1 : Station × ℚ :=
    if st.busy then
      let remaining := st.remainingTime - stepSize
      if remaining ≤ 0 then
        ({ st with busy := false, remainingTime := remaining, traveler := none },
          sbt + stepSize)
      else ({ st with remainingTime := remaining }, sbt + stepSize)
    else (st, sbt)
  match step1.1.busy, step1.1.queue with
  | false, t :: rest =>
    match truncatedNormal m mu2 sigma2 g fuel n fuel with
    | none => none
    | some (serviceTime, n') =>
      some ({ busy := true, remainingTime := serviceTime, traveler := some t,
              queue := rest },
            step1.2, svc ++ [serviceTime], n')
  | _, _ => some (step1.1, step1.2, svc, n)

/-- Phases 2-4 of one loop iteration (src/unnamed/part_001, lines 215-273),
given the station list `stations1`, countdown `tta1` and stream position
`rng1` left by the arrival phase: process the primary stations, then the
senior station, then append the time-series record. -/
def simStepCore (m : MathFns) (p : SimParams) (g : ℕ → ℚ) (fuel : ℕ)
    (step : ℕ) (s : SimState) (stations1 : List Station) (tta1 : ℚ)
    (rng1 : ℕ) : Option SimState :=
  let currentTime : ℚ := (step : ℚ) * stepSize
  match processPrimaries m g fuel p.mu1 p.sigma1 currentTime
      (stations1.zip s.stationBusyTime)
      { seniorQueue := s.seniorStation.queue, waitingTimes := s.waitingTimes,
        primaryServiceTimes := s.primaryServiceTimes, rngIndex := rng1,
        completed := s.primaryCompleted } with
  | none => none
  | some (pairs, ctx) =>
    match processSenior m g fuel p.mu2 p.sigma2
        { s.seniorStation with queue := ctx.seniorQueue }
        s.seniorBusyTime s.seniorServiceTimes ctx.rngIndex with
    | none => none
    | some (senior2, sbt2, svc2, rng2) =>
      let stations2 := pairs.map Prod.fst
      let queueLengths := stations2.map (fun st => st.queue.length)
      let totalQueueLength := queueLengths.sum + senior2.queue.length
      some { primaryStations := stations2,
             seniorStation := senior2,
             timeSeries := s.timeSeries ++
               [{ time := currentTime, queueLengths := queueLengths,
                  seniorQueueLength := senior2.queue.length,
                  totalQueueLength := totalQueueLength }],
             waitingTimes := ctx.waitingTimes,
             primaryServiceTimes := ctx.primaryServiceTimes,
             seniorServiceTimes := svc2,
             stationBusyTime := pairs.map Prod.snd,
             seniorBusyTime := sbt2,
             timeToNextArrival := tta1,
             rngIndex := rng2,
             primaryCompleted := ctx.completed }

/-- One iteration of the main loop (src/unnamed/part_001, lines 194-274):
arrival handling (countdown, shortest-queue routing, screening draw,
exponential resample), then `simStepCore` for the remaining phases. -/
def simStep (m : MathFns) (p : SimParams) (g : ℕ → ℚ) (fuel : ℕ)
    (step : ℕ) (s : SimState) : Option SimState :=
  let currentTime : ℚ := (step : ℚ) * stepSize
  let arrivalRatePerSecond : ℚ := p.arrivalRate / 60
  let tta : ℚ := s.timeToNextArrival - stepSize
  let arrival : Option (List Station × ℚ × ℕ) :=
    if tta ≤ 0 then
      let idx := shortestQueueIndex (s.primaryStations.map (fun st => st.queue.length))
      let traveler : Traveler :=
        { arrivalTime := currentTime,
          needsScreening := decide (g s.rngIndex < p.screenProb),
          startServiceTime := none }
      let stations' :=
        match s.primaryStations.get? idx with
        | some st => s.primaryStations.set idx { st with queue := st.queue ++ [traveler] }
        | none => s.primaryStations
      match expSample m arrivalRatePerSecond (g (s.rngIndex + 1)) with
      | none => none
      | some t' => some (stations', t', s.rngIndex + 2)
    else some (s.primaryStations, tta, s.rngIndex)
  match arrival with
  | none => none
  | some (stations1, tta1, rng1) =>
    simStepCore m p g fuel step s stations1 tta1 rng1

/-- The main loop: run `k` steps starting at step number `step`. -/
def runLoop (m : MathFns) (p : SimParams) (g : ℕ → ℚ) (fuel : ℕ) :
    ℕ → ℕ → SimState → Option SimState
  | _, 0, s => some s
  | step, k + 1, s =>
    match simStep m p g fuel step s with
    | none => none
    | some s' => runLoop m p g fuel (step + 1) k s'

/-- The initial state (src/unnamed/part_001, lines 169-192): all stations
idle with empty queues, empty accumulators, and `timeToNextArrival` set to
the initial exponential draw `t0` (which consumed stream position 0). -/
def initState (p : SimParams) (t0 : ℚ) : SimState :=
  { primaryStations := List.replicate p.numStations
      { busy := false, remainingTime := 0, traveler := none, queue := [] },
    seniorStation := { busy := false, remainingTime := 0, traveler := none, queue := [] },
    timeSeries := [], waitingTimes := [], primaryServiceTimes := [],
    seniorServiceTimes := [],
    stationBusyTime := List.replicate p.numStations 0,
    seniorBusyTime := 0, timeToNextArrival := t0, rngIndex := 1,
    primaryCompleted := 0 }

/-- `totalSteps = Math.ceil(simulationTime / stepSize)`
(src/unnamed/part_001, line 165); a non-positive value means the loop body
never runs, matching the `toNat` of a non-positive ceiling. -/
def totalSteps (p : SimParams) : ℕ := (Int.ceil (p.simulationTime / stepSize)).toNat

/-- The state after the full loop of `runSimulation`: the initial
exponential draw `-Math.log(Math.random()) / arrivalRatePerSecond`
(line 192) followed by `totalSteps` iterations. -/
def runSimulationState (m : MathFns) (p : SimParams) (g : ℕ → ℚ) (fuel : ℕ) :
    Option SimState :=
  match expSample m (p.arrivalRate / 60) (g 0) with
  | none => none
  | some t0 => runLoop m p g fuel 0 (totalSteps p) (initState p t0)

/-- Result record of `runSimulation` (src/unnamed/part_001, lines 113-123).
`maxQueueLength` is a count, embedded as `ℕ`. -/
structure SimResult where
  timeSeries : List TimeSeriesPoint
  avgWaitingTime : ℚ
  maxQueueLength : ℕ
  utilization : ℚ
  avgQueueLength : ℚ
  avgSystemTime : ℚ
  waitingTimeDistribution : WaitingTimeDistribution
  perStationUtilization : List ℚ
  seniorUtilization : ℚ
  deriving Repr, DecidableEq

/-- The aggregation after the loop (src/unnamed/part_001, lines 276-294).
`sum / length || 0` yields `0` exactly on the empty list (where `sum/0` is
`NaN`; `0 || 0` is also `0`).  `Math.max(...)` over the total queue lengths
is their maximum, all values being natural numbers (the empty case, JS
`-Infinity`, arises only for an empty time series, which no claim
exercises).  `avgQueueLength` divides by the time-series length with no
guard, as the source does. -/
def buildResult (p : SimParams) (s : SimState) : SimResult :=
  let avgWaitingTime : ℚ :=
    if s.waitingTimes.length = 0 then 0
    else s.waitingTimes.foldl (· + ·) 0 / s.waitingTimes.length
  { timeSeries := s.timeSeries,
    avgWaitingTime := avgWaitingTime,
    maxQueueLength := (s.timeSeries.map (fun pt => pt.totalQueueLength)).foldl max 0,
    utilization :=
      (s.stationBusyTime.map (fun t => t / p.simulationTime)).foldl (· + ·) 0 /
        p.numStations,
    avgQueueLength :=
      (s.timeSeries.foldl (fun sum pt => sum + (pt.totalQueueLength : ℚ)) (0 : ℚ)) /
        (s.timeSeries.length : ℚ),
    avgSystemTime := avgWaitingTime +
      (if s.primaryServiceTimes.length = 0 then 0
       else s.primaryServiceTimes.foldl (· + ·) (0 : ℚ) /
         (s.primaryServiceTimes.length : ℚ)) +
      (if 0 < s.seniorServiceTimes.length then
        s.seniorServiceTimes.foldl (· + ·) (0 : ℚ) /
          (s.seniorServiceTimes.length : ℚ)
       else 0),
    waitingTimeDistribution := calculateWaitingTimeDistribution s.waitingTimes,
    perStationUtilization := s.stationBusyTime.map (fun t => t / p.simulationTime),
    seniorUtilization := s.seniorBusyTime / p.simulationTime }

/-- Source `runSimulation` (src/unnamed/part_001, lines 152-295). -/
def runSimulation (m : MathFns) (p : SimParams) (g : ℕ → ℚ) (fuel : ℕ) :
    Option SimResult :=
  (runSimulationState m p g fuel).map (buildResult p)

/-! ## Step invariants of the simulation engine -/

/-- A station is busy exactly when it holds a traveler (spec.md §3). -/
def stationOk (st : Station) : Prop := st.busy = st.traveler.isSome

/-- Number of primary stations currently holding a traveler in service. -/
def countHolders (stations : List Station) : ℕ :=
  stations.countP (fun st => st.traveler.isSome)

/-- Contribution of one station to `countHolders`. -/
def holder (st : Station) : ℕ := if st.traveler.isSome then 1 else 0

/-- `countHolders` over a station/busy-time pair list. -/
def holdersP (l : List (Station × ℚ)) : ℕ :=
  l.countP (fun pr => pr.1.traveler.isSome)

/-- Busy-time bound for one primary station after `step` steps: the
accumulated busy time is non-negative and either at most
`(step - 1) · stepSize` or still zero with the station idle (a station can
only accrue busy time from the step after it first became busy). -/
def PairInv (step : ℕ) (pr : Station × ℚ) : Prop :=
  0 ≤ pr.2 ∧ (pr.2 * 10 + 1 ≤ (step : ℚ) ∨ (pr.2 = 0 ∧ pr.1.busy = false))

/-- The same busy-time bound for the senior station. -/
def SeniorInv (step : ℕ) (st : Station) (sbt : ℚ) : Prop :=
  0 ≤ sbt ∧ (sbt * 10 + 1 ≤ (step : ℚ) ∨ (sbt = 0 ∧ st.busy = false))

/-- The inductive invariant of the simulation loop after `step` steps. -/
structure StateInv (step : ℕ) (s : SimState) : Prop where
  primOk : ∀ st ∈ s.primaryStations, stationOk st
  seniorOk : stationOk s.seniorStation
  conserve : s.waitingTimes.length =
    s.primaryCompleted + countHolders s.primaryStations
  lenEq : s.stationBusyTime.length = s.primaryStations.length
  pairInv : ∀ pr ∈ s.primaryStations.zip s.stationBusyTime, PairInv step pr
  seniorInv : SeniorInv step s.seniorStation s.seniorBusyTime

/-- Stand-ins whose logarithm is constantly `-1/100` (a value `Math.log`
takes at `u ≈ 0.99`), giving an inter-arrival countdown of `0.01 s` so the
first step already sees an arrival. -/
def quickArrivalMathFns : MathFns :=
  { log := fun _ => -1/100, sqrt := fun _ => 0, cos := fun _ => 0, pi := 3 }

/-- One station, 60 arrivals/min (rate 1/s), deterministic 30 s primary
service (`sigma1 = 0`), no screening, one 0.1 s step. -/
def smallRunParams : SimParams :=
  { numStations := 1, arrivalRate := 60, mu1 := 30, sigma1 := 0,
    mu2 := 120, sigma2 := 0, screenProb := 0, simulationTime := 1/10 }

/-- A legal random stream whose third draw (position 2, the inter-arrival
resample after the first arrival) is exactly 0. -/
def zeroAtTwoStream : ℕ → ℚ := fun n => if n = 2 then 0 else 1/2

/-- The state after the single step of the run with `quickArrivalMathFns`,
`smallRunParams` and the constant-`1/2` stream: one traveler arrived at
`t = 0`, immediately started a 30 s primary service (one waiting-time
sample, still in service at the horizon), and nothing completed. -/
def smallRunFinalState : SimState :=
  { primaryStations :=
      [{ busy := true
         remainingTime := 30
         traveler := some { arrivalTime := 0
                            needsScreening := false
                            startServiceTime := some 0 }
         queue := [] }]
    seniorStation :=
      { busy := false, remainingTime := 0, traveler := none, queue := [] }
    timeSeries :=
      [{ time := 0, queueLengths := [0], seniorQueueLength := 0,
         totalQueueLength := 0 }]
    waitingTimes := [0]
    primaryServiceTimes := [30]
    seniorServiceTimes := []
    stationBusyTime := [0]
    seniorBusyTime := 0
    timeToNextArrival := 1/100
    rngIndex := 5
    primaryCompleted := 0 }

/-! ## Theorems -/

theorem factorial_eq_nat_factorial (n : ℕ) : factorial n = (Nat.factorial n : ℚ) := by
  induction n with
  | zero => simp [factorial, Nat.factorial]
  | succ m ih =>
    rcases Nat.eq_zero_or_pos m with hm | hm
    · subst hm; simp [factorial, Nat.factorial]
    · have h1 : ¬ (m + 1 ≤ 1) := by omega
      simp only [factorial, if_neg h1, ih, Nat.factorial_succ]
      push_cast
      ring

theorem list_range_map_sum (n : ℕ) (f : ℕ → ℚ) :
    ((List.range n).map f).foldl (· + ·) 0 = (Finset.range n).sum f := by
  induction n with
  | zero => simp
  | succ m ih =>
    rw [List.range_succ, Finset.sum_range_succ, ← ih]
    simp [List.foldl_append]

/-- C4: `calculateTheoretical` computes exactly the documented closed form
(λ = arrivalRate/60, μ = 1000/mu1, ρ = λ/(cμ), Erlang-C `P0` and `C`,
`Lq = Cρ/(1-ρ)`, `Wq = Lq/λ`, `Ws = Wq + 1/μ`), for every parameter
record. -/
theorem calculateTheoretical_eq_spec (params : SimParams) :
    calculateTheoretical params = calculateTheoreticalSpec params := by
  unfold calculateTheoretical calculateTheoreticalSpec
  have hmu : (1 : ℚ) / (params.mu1 / 1000) = 1000 / params.mu1 := one_div_div _ _
  simp only [hmu, factorial_eq_nat_factorial, list_range_map_sum, inv_eq_one_div]

theorem calculateTheoretical_stabilityTestParams :
    calculateTheoretical stabilityTestParams =
      { utilization := 5/2, avgQueueLength := -125/21,
        avgWaitTime := -250/7, avgSystemTime := -40/7 } := by
  norm_num [calculateTheoretical, stabilityTestParams, factorial,
    List.range_succ, TheoreticalResults.mk.injEq]

/-- C1 fails on the code: at `arrivalRate = 10`, `mu1 = 30000`,
`numStations = 2` the traffic intensity is `ρ = 5/2`, which is not `< 1`,
and `Lq`, `Wq`, `Ws` are negative.  This closed theorem refutes the claimed
conjunction at that exact input. -/
theorem calculateTheoretical_stability_counterexample :
    ¬ ((calculateTheoretical stabilityTestParams).utilization < 1 ∧
       0 ≤ (calculateTheoretical stabilityTestParams).avgQueueLength ∧
       0 ≤ (calculateTheoretical stabilityTestParams).avgWaitTime ∧
       0 ≤ (calculateTheoretical stabilityTestParams).avgSystemTime) := by
  rw [calculateTheoretical_stabilityTestParams]
  norm_num

/-- C1 (amended): at `arrivalRate = 10`, `mu1 = 30000`, `numStations = 2`
the code yields the exact finite values `ρ = 5/2` (so `ρ ≥ 1`, an unstable
system) and strictly negative `Lq = -125/21`, `Wq = -250/7`,
`Ws = -40/7`. -/
theorem calculateTheoretical_at_unstable_input :
    calculateTheoretical stabilityTestParams =
      { utilization := 5/2, avgQueueLength := -125/21,
        avgWaitTime := -250/7, avgSystemTime := -40/7 } ∧
    (1 : ℚ) ≤ 5/2 ∧ (-125/21 : ℚ) < 0 ∧ (-250/7 : ℚ) < 0 ∧ (-40/7 : ℚ) < 0 :=
  ⟨calculateTheoretical_stabilityTestParams,
    by norm_num, by norm_num, by norm_num, by norm_num⟩

/-- C2 fails on the code: with waiting times `[0, 0, 0]` the bin width is
`0`, every bin-index computation is `0/0 = NaN`, and the increment at index
`NaN` changes no slot of `counts`.  All 20 counts remain `0` — in
particular `counts[0] = 0`, not the number of samples `3`. -/
theorem histogram_all_zero_counts_remain_zero :
    (calculateWaitingTimeDistribution [0, 0, 0]).counts = List.replicate 20 0 ∧
    (calculateWaitingTimeDistribution [0, 0, 0]).counts.getD 0 0 = 0 ∧
    (calculateWaitingTimeDistribution [0, 0, 0]).counts.sum = 0 ∧
    ([(0 : ℚ), 0, 0].length = 3) := by
  have h : calculateWaitingTimeDistribution [0, 0, 0] =
      { bins := (List.range 20).map (fun i => (i : ℚ) * 0),
        counts := List.replicate 20 0 } := by
    simp [calculateWaitingTimeDistribution, jsMax, binIndexJs, bumpCount]
  refine ⟨by rw [h], by rw [h]; simp, by rw [h]; simp, by simp⟩

theorem le_foldl_max (l : List ℚ) (b : ℚ) : b ≤ l.foldl max b := by
  induction l generalizing b with
  | nil => simp
  | cons x xs ih => exact le_trans (le_max_left b x) (ih (max b x))

theorem jsMax_pos (l : List ℚ) (hne : l ≠ []) (hnn : ∀ t ∈ l, 0 ≤ t)
    (hz : jsMax l ≠ 0) : 0 < jsMax l := by
  rcases l with _ | ⟨x, xs⟩
  · exact absurd rfl hne
  · have hx : 0 ≤ x := hnn x (by simp)
    have : x ≤ jsMax (x :: xs) := by
      simpa [jsMax] using le_foldl_max (x :: xs) x
    exact lt_of_le_of_ne (le_trans hx this) (Ne.symm hz)

theorem sum_set_getD_add_one (cs : List ℕ) (i : ℕ) (h : i < cs.length) :
    (cs.set i (cs.getD i 0 + 1)).sum = cs.sum + 1 := by
  induction cs generalizing i with
  | nil => simp at h
  | cons c cs ih =>
    rcases i with _ | j
    · simp [List.sum_cons]
      omega
    · have hj : j < cs.length := by simpa using h
      have hih := ih j hj
      rw [List.getD_cons_succ]
      show (c :: cs.set j (cs.getD j 0 + 1)).sum = (c :: cs).sum + 1
      rw [List.sum_cons, List.sum_cons, hih]
      omega

theorem bumpCount_inRange_sum (cs : List ℕ) (t binSize : ℚ)
    (hb : 0 < binSize) (ht : 0 ≤ t) (hlen : cs.length = 20) :
    (bumpCount cs (binIndexJs t binSize)).sum = cs.sum + 1 ∧
    (bumpCount cs (binIndexJs t binSize)).length = 20 := by
  have hbne : binSize ≠ 0 := ne_of_gt hb
  have hq : (0 : ℚ) ≤ t / binSize := div_nonneg ht (le_of_lt hb)
  have hfl : (0 : ℤ) ≤ ⌊t / binSize⌋ := Int.floor_nonneg.mpr hq
  set i : ℤ := min ⌊t / binSize⌋ 19 with hi
  have hnn : (0 : ℤ) ≤ i := le_min hfl (by norm_num)
  have hlt : i ≤ 19 := min_le_right _ _
  have htn : i.toNat < cs.length := by
    rw [hlen]
    omega
  have hbi : binIndexJs t binSize = BinIndex.idx i := by
    simp [binIndexJs, hbne, hi]
  rw [hbi]
  simp only [bumpCount, if_pos hnn]
  exact ⟨sum_set_getD_add_one cs i.toNat htn, by simp [hlen]⟩

theorem foldl_bump_sum (binSize : ℚ) (hb : 0 < binSize) :
    ∀ (l : List ℚ) (cs : List ℕ), (∀ t ∈ l, 0 ≤ t) → cs.length = 20 →
      (l.foldl (fun cs t => bumpCount cs (binIndexJs t binSize)) cs).sum =
        cs.sum + l.length := by
  intro l
  induction l with
  | nil => intro cs _ _; simp
  | cons x xs ih =>
    intro cs hnn hlen
    have hx : 0 ≤ x := hnn x (by simp)
    obtain ⟨hsum, hlen'⟩ := bumpCount_inRange_sum cs x binSize hb hx hlen
    simp only [List.foldl_cons]
    rw [ih _ (fun t ht => hnn t (by simp [ht])) hlen', hsum, List.length_cons]
    omega

/-- C7: for every non-empty sample of non-negative waiting times whose
maximum is non-zero, the 20-bin histogram places each sample in exactly one
bin (`floor(value/binWidth)` clamped to bin 19), so the counts sum to the
sample size. -/
theorem waitingTimeDistribution_total (ws : List ℚ) (hne : ws ≠ [])
    (hnn : ∀ t ∈ ws, 0 ≤ t) (hmax : jsMax ws ≠ 0) :
    (calculateWaitingTimeDistribution ws).counts.sum = ws.length := by
  have hpos : 0 < jsMax ws := jsMax_pos ws hne hnn hmax
  have hb : 0 < jsMax ws / (20 : ℚ) := by positivity
  show (ws.foldl
      (fun cs t => bumpCount cs (binIndexJs t (jsMax ws / (20 : ℕ))))
      (List.replicate 20 0)).sum = ws.length
  have h20 : ((20 : ℕ) : ℚ) = (20 : ℚ) := by norm_num
  rw [h20, foldl_bump_sum _ hb ws (List.replicate 20 0) hnn (by simp)]
  simp

/-- Witness for C7 at the concrete sample `[1]`. -/
theorem waitingTimeDistribution_total_witness :
    (calculateWaitingTimeDistribution [1]).counts.sum = [(1 : ℚ)].length :=
  waitingTimeDistribution_total [1] (by simp) (by norm_num) (by simp [jsMax])

theorem sampleNonzero_ne_zero (g : ℕ → ℚ) (u : ℚ) :
    ∀ (fuel n n' : ℕ), sampleNonzero g n fuel = some (u, n') → u ≠ 0 := by
  intro fuel
  induction fuel with
  | zero => intro n n' h; simp [sampleNonzero] at h
  | succ f ih =>
    intro n n' h
    by_cases hz : g n = 0
    · exact ih (n + 1) n' (by simpa [sampleNonzero, hz] using h)
    · simp [sampleNonzero, hz] at h
      rw [← h.1]
      exact hz

theorem truncatedNormal_result_nonneg (m : MathFns) (mu sigma : ℚ)
    (g : ℕ → ℚ) (innerFuel : ℕ) (r : ℚ) :
    ∀ (fuel n n' : ℕ),
      truncatedNormal m mu sigma g innerFuel n fuel = some (r, n') → 0 ≤ r := by
  intro fuel
  induction fuel with
  | zero => intro n n' h; simp [truncatedNormal] at h
  | succ f ih =>
    intro n n' h
    rw [truncatedNormal] at h
    rcases hbm : boxMullerDraw m g n innerFuel with _ | ⟨z, n1⟩
    · rw [hbm] at h; exact absurd h (by simp)
    · rw [hbm] at h
      simp only at h
      by_cases hneg : mu + sigma * z < 0
      · exact ih n1 n' (by simpa [hneg] using h)
      · have : r = mu + sigma * z := by
          simp [hneg] at h
          exact h.1.symm
        rw [this]
        exact le_of_not_lt hneg

/-- C9: whenever `truncatedNormal` returns, its result is non-negative
(the rejection loop exits only on `value ≥ 0`), and every uniform draw
produced by the resample-until-non-zero loops is non-zero — hence, for a
stream of legal `Math.random()` values (all `≥ 0`), positive, so the
embedded logarithm is defined at it and `sqrt(-2 ln u) * cos(2 π v)` never
sees a logarithm of zero. -/
theorem truncatedNormal_nonneg_and_log_safe
    (m : MathFns) (mu sigma : ℚ) (g : ℕ → ℚ) (innerFuel n fuel : ℕ)
    (r : ℚ) (n' : ℕ) (u : ℚ) (nu fu nu' : ℕ)
    (hg : ∀ i, 0 ≤ g i)
    (hrun : truncatedNormal m mu sigma g innerFuel n fuel = some (r, n'))
    (hu : sampleNonzero g nu fu = some (u, nu')) :
    0 ≤ r ∧ u ≠ 0 ∧ (logTotal m u).isSome := by
  have hne : u ≠ 0 := sampleNonzero_ne_zero g u fu nu nu' hu
  have hpos : 0 < u := by
    have h0 : 0 ≤ u := by
      have : ∀ (f nn nn' : ℕ) (v : ℚ), sampleNonzero g nn f = some (v, nn') → 0 ≤ v := by
        intro f
        induction f with
        | zero => intro nn nn' v h; simp [sampleNonzero] at h
        | succ f ih =>
          intro nn nn' v h
          by_cases hz : g nn = 0
          · exact ih (nn + 1) nn' v (by simpa [sampleNonzero, hz] using h)
          · simp [sampleNonzero, hz] at h
            rw [← h.1]
            exact hg nn
      exact this fu nu nu' u hu
    exact lt_of_le_of_ne h0 (Ne.symm hne)
  exact ⟨truncatedNormal_result_nonneg m mu sigma g innerFuel r fuel n n' hrun,
    hne, by simp [logTotal, hpos]⟩

/-- Witness for C9: with every draw equal to `1/2` and `sigma = 0`,
`truncatedNormal` returns `5 ≥ 0` after one accepted draw, and the first
resample loop returns the non-zero draw `1/2`, at which the logarithm is
defined. -/
theorem truncatedNormal_nonneg_and_log_safe_witness :
    0 ≤ (5 : ℚ) ∧ (1/2 : ℚ) ≠ 0 ∧ (logTotal demoMathFns (1/2)).isSome :=
  truncatedNormal_nonneg_and_log_safe demoMathFns 5 0 demoStream 1 0 1 5 2
    (1/2) 0 1 1 (fun i => by norm_num [demoStream])
    (by norm_num [truncatedNormal, boxMullerDraw, sampleNonzero, logTotal,
      demoStream, demoMathFns])
    (by norm_num [sampleNonzero, demoStream])

/-! ## Shortest-queue routing (C5) -/

theorem minScan_foldl_mem (t : List (ℕ × ℕ)) : ∀ a : ℕ × ℕ,
    t.foldl (fun mn curr => if curr.1 < mn.1 then curr else mn) a ∈ a :: t := by
  induction t with
  | nil => intro a; simp
  | cons c t ih =>
    intro a
    simp only [List.foldl_cons]
    rcases List.mem_cons.mp (ih (if c.1 < a.1 then c else a)) with h | h
    · rw [h]
      by_cases hc : c.1 < a.1 <;> simp [hc]
    · simp [h]

theorem minScan_foldl_le_seed (t : List (ℕ × ℕ)) : ∀ a : ℕ × ℕ,
    (t.foldl (fun mn curr => if curr.1 < mn.1 then curr else mn) a).1 ≤ a.1 := by
  induction t with
  | nil => intro a; simp
  | cons c t ih =>
    intro a
    simp only [List.foldl_cons]
    refine le_trans (ih _) ?_
    by_cases hc : c.1 < a.1 <;> simp [hc]
    exact le_of_lt hc

theorem minScan_foldl_le_mem (t : List (ℕ × ℕ)) : ∀ (a x : ℕ × ℕ), x ∈ t →
    (t.foldl (fun mn curr => if curr.1 < mn.1 then curr else mn) a).1 ≤ x.1 := by
  induction t with
  | nil => intro a x hx; simp at hx
  | cons c t ih =>
    intro a x hx
    simp only [List.foldl_cons]
    rcases List.mem_cons.mp hx with h | h
    · refine le_trans (minScan_foldl_le_seed t _) ?_
      rw [h]
      by_cases hc : c.1 < a.1 <;> simp [hc]
      exact le_of_not_lt hc
    · exact ih _ x h

theorem minScan_foldl_first (t : List (ℕ × ℕ)) : ∀ (a x : ℕ × ℕ),
    (∀ y ∈ t, a.2 < y.2) → t.Pairwise (fun u v => u.2 < v.2) →
    x ∈ a :: t →
    x.1 = (t.foldl (fun mn curr => if curr.1 < mn.1 then curr else mn) a).1 →
    (t.foldl (fun mn curr => if curr.1 < mn.1 then curr else mn) a).2 ≤ x.2 := by
  induction t with
  | nil =>
    intro a x _ _ hx _
    have hxa : x = a := by simpa using hx
    simp [hxa]
  | cons c t ih =>
    intro a x ha hpw hx hx1
    obtain ⟨hct, hpw'⟩ := List.pairwise_cons.mp hpw
    have ha't : ∀ y ∈ t, (if c.1 < a.1 then c else a).2 < y.2 := by
      intro y hy
      by_cases hc : c.1 < a.1 <;> simp [hc]
      · exact hct y hy
      · exact ha y (List.mem_cons_of_mem c hy)
    simp only [List.foldl_cons] at hx1 ⊢
    rcases List.mem_cons.mp hx with hxa | hx'
    · by_cases hc : c.1 < a.1
      · exfalso
        have hr1 := minScan_foldl_le_seed t (if c.1 < a.1 then c else a)
        simp only [if_pos hc] at hr1 hx1
        rw [hxa] at hx1
        omega
      · refine ih _ x ha't hpw' ?_ hx1
        rw [if_neg hc, hxa]
        exact List.mem_cons_self a t
    · rcases List.mem_cons.mp hx' with hxc | hxt
      · by_cases hc : c.1 < a.1
        · refine ih _ x ha't hpw' ?_ hx1
          rw [if_pos hc, hxc]
          exact List.mem_cons_self c t
        · have hr1 := minScan_foldl_le_seed t (if c.1 < a.1 then c else a)
          rw [if_neg hc] at hr1
          have hac : a.1 ≤ c.1 := le_of_not_lt hc
          rw [hxc] at hx1
          have hra : (t.foldl (fun mn curr => if curr.1 < mn.1 then curr else mn)
              (if c.1 < a.1 then c else a)).1 = a.1 := by
            rw [if_neg hc] at *
            omega
          have h2 := ih (if c.1 < a.1 then c else a) a ha't hpw'
            (by rw [if_neg hc]; exact List.mem_cons_self a t)
            (by rw [hra])
          have hac2 : a.2 < c.2 := ha c (List.mem_cons_self c t)
          rw [hxc]
          omega
      · exact ih _ x ha't hpw' (List.mem_cons_of_mem _ hxt) hx1

theorem enum_swap_pairwise (L : List ℕ) :
    (L.enum.map (fun p => (p.2, p.1))).Pairwise (fun u v => u.2 < v.2) := by
  rw [List.pairwise_map]
  rw [List.pairwise_iff_getElem]
  intro i j hi hj hij
  simp only [List.getElem_enum]
  simpa using hij

theorem mem_enum_swap (L : List ℕ) (j : ℕ) (hj : j < L.length) :
    (L.getD j 0, j) ∈ L.enum.map (fun p => (p.2, p.1)) := by
  rw [List.mem_map]
  refine ⟨(j, L.getD j 0), ?_, rfl⟩
  rw [List.mk_mem_enum_iff_getElem?]
  rw [List.getD_eq_getElem L 0 hj]
  exact List.getElem?_eq_getElem hj

theorem enum_swap_mem_char (L : List ℕ) (x : ℕ × ℕ)
    (hx : x ∈ L.enum.map (fun p => (p.2, p.1))) :
    x.2 < L.length ∧ x.1 = L.getD x.2 0 := by
  rw [List.mem_map] at hx
  obtain ⟨y, hy, hxy⟩ := hx
  rw [List.mk_mem_enum_iff_getElem?] at *
  rcases y with ⟨i, v⟩
  have hy' : L[i]? = some v := by simpa using hy
  have hi : i < L.length := by
    by_contra hcon
    rw [List.getElem?_eq_none (by omega)] at hy'
    exact Option.noConfusion hy'
  subst hxy
  refine ⟨hi, ?_⟩
  rw [List.getD_eq_getElem L 0 hi]
  have := List.getElem?_eq_getElem hi
  rw [this] at hy'
  exact (Option.some_injective _ hy').symm

/-- C5: the shortest-queue scan (used by the arrival branch of
`runSimulation` to choose the primary queue an arriving traveler is pushed
onto) returns a valid station index of minimum queue length, with ties
broken by the lowest index, and on the snapshot `[2, 0, 3]` it routes to
station index 1. -/
theorem shortestQueueIndex_spec (L : List ℕ) (hne : L ≠ []) :
    shortestQueueIndex L < L.length ∧
    (∀ j, j < L.length → L.getD (shortestQueueIndex L) 0 ≤ L.getD j 0) ∧
    (∀ j, j < L.length → L.getD j 0 = L.getD (shortestQueueIndex L) 0 →
      shortestQueueIndex L ≤ j) ∧
    shortestQueueIndex [2, 0, 3] = 1 := by
  rcases hps : L.enum.map (fun p => (p.2, p.1)) with _ | ⟨h, t⟩
  · exfalso
    apply hne
    have : L.enum.length = 0 := by
      have := congrArg List.length hps
      simpa using this
    rcases L with _ | ⟨x, xs⟩
    · rfl
    · simp at this
  · have hdef : shortestQueueIndex L =
        ((t.foldl (fun mn curr => if curr.1 < mn.1 then curr else mn) h)).2 := by
      rw [shortestQueueIndex, hps]
    set r := t.foldl (fun mn curr => if curr.1 < mn.1 then curr else mn) h with hr
    have hrmem : r ∈ L.enum.map (fun p => (p.2, p.1)) := by
      rw [hps]; exact minScan_foldl_mem t h
    obtain ⟨hrlt, hrval⟩ := enum_swap_mem_char L r hrmem
    have hpw : (L.enum.map (fun p => (p.2, p.1))).Pairwise (fun u v => u.2 < v.2) :=
      enum_swap_pairwise L
    rw [hps] at hpw
    obtain ⟨hht, hpw'⟩ := List.pairwise_cons.mp hpw
    have hminall : ∀ x ∈ L.enum.map (fun p => (p.2, p.1)), r.1 ≤ x.1 := by
      intro x hx
      rw [hps] at hx
      rcases List.mem_cons.mp hx with hxh | hxt
      · rw [hxh]; exact minScan_foldl_le_seed t h
      · exact minScan_foldl_le_mem t h x hxt
    refine ⟨hdef ▸ hrlt, ?_, ?_, by decide⟩
    · intro j hj
      have hjm := mem_enum_swap L j hj
      have := hminall _ hjm
      rw [hdef, ← hrval]
      simpa using this
    · intro j hj hval
      have hjm := mem_enum_swap L j hj
      rw [hps] at hjm
      have hx1 : (L.getD j 0, j).1 =
          (t.foldl (fun mn curr => if curr.1 < mn.1 then curr else mn) h).1 := by
        show L.getD j 0 = r.1
        rw [hrval, ← hdef]
        exact hval
      have hfirst := minScan_foldl_first t h (L.getD j 0, j) hht hpw' hjm hx1
      rw [hdef]
      simpa using hfirst

/-- Witness for C5 at the snapshot `[2, 0, 3]`: index 1 is valid, has the
minimum queue length, is the lowest index attaining it, and equals the
scan's result. -/
theorem shortestQueueIndex_spec_witness :
    shortestQueueIndex [2, 0, 3] < [2, 0, 3].length ∧
    (∀ j, j < [2, 0, 3].length →
      [2, 0, 3].getD (shortestQueueIndex [2, 0, 3]) 0 ≤ [2, 0, 3].getD j 0) ∧
    (∀ j, j < [2, 0, 3].length →
      [2, 0, 3].getD j 0 = [2, 0, 3].getD (shortestQueueIndex [2, 0, 3]) 0 →
      shortestQueueIndex [2, 0, 3] ≤ j) ∧
    shortestQueueIndex [2, 0, 3] = 1 :=
  shortestQueueIndex_spec [2, 0, 3] (by simp)

theorem processPrimaryStation_spec (m : MathFns) (g : ℕ → ℚ) (fuel : ℕ)
    (mu1 sigma1 currentTime : ℚ) (st : Station) (bt : ℚ) (c : PrimCtx)
    (st' : Station) (bt' : ℚ) (c' : PrimCtx) (hok : stationOk st)
    (h : processPrimaryStation m g fuel mu1 sigma1 currentTime st bt c =
      some (st', bt', c')) :
    stationOk st' ∧
    bt' = (if st.busy then bt + stepSize else bt) ∧
    c'.waitingTimes.length + c.completed + holder st =
      c.waitingTimes.length + c'.completed + holder st' := by
  rw [stationOk] at hok
  cases hbusy : st.busy with
  | false =>
    rw [hbusy] at hok
    have htrav : st.traveler = none := by
      cases htr : st.traveler
      · rfl
      · rw [htr] at hok; simp at hok
    cases hq : st.queue with
    | nil =>
      simp only [processPrimaryStation, hbusy, Bool.false_eq_true, if_false,
        hq] at h
      obtain ⟨h1, h2, h3⟩ := by simpa using h
      subst h1 h2 h3
      refine ⟨by rw [stationOk, hbusy]; exact hok, by simp [hbusy], by simp⟩
    | cons t1 rest =>
      simp only [processPrimaryStation, hbusy, Bool.false_eq_true, if_false,
        hq] at h
      cases htn : truncatedNormal m mu1 sigma1 g fuel c.rngIndex fuel with
      | none => rw [htn] at h; simp at h
      | some v =>
        rcases v with ⟨sv, n1⟩
        rw [htn] at h
        obtain ⟨h1, h2, h3⟩ := by simpa using h
        subst h1 h2 h3
        refine ⟨by simp [stationOk], by simp [hbusy], ?_⟩
        simp [holder, htrav]; omega
  | true =>
    rw [hbusy] at hok
    have htrav : ∃ tv, st.traveler = some tv := by
      cases htr : st.traveler
      · rw [htr] at hok; simp at hok
      · exact ⟨_, rfl⟩
    obtain ⟨tv, htrav⟩ := htrav
    by_cases hr : st.remainingTime - stepSize ≤ 0
    · cases hscr : tv.needsScreening with
      | false =>
        cases hq : st.queue with
        | nil =>
          simp only [processPrimaryStation, hbusy, if_true, if_pos hr, htrav,
            hscr, Bool.false_eq_true, if_false, hq] at h
          obtain ⟨h1, h2, h3⟩ := by simpa using h
          subst h1 h2 h3
          refine ⟨by simp [stationOk], by simp [hbusy], ?_⟩
          simp [holder, htrav]; omega
        | cons t1 rest =>
          simp only [processPrimaryStation, hbusy, if_true, if_pos hr, htrav,
            hscr, Bool.false_eq_true, if_false, hq] at h
          cases htn : truncatedNormal m mu1 sigma1 g fuel c.rngIndex fuel with
          | none => rw [htn] at h; simp at h
          | some v =>
            rcases v with ⟨sv, n1⟩
            rw [htn] at h
            obtain ⟨h1, h2, h3⟩ := by simpa using h
            subst h1 h2 h3
            refine ⟨by simp [stationOk], by simp [hbusy], ?_⟩
            simp [holder, htrav]; omega
      | true =>
        cases hq : st.queue with
        | nil =>
          simp only [processPrimaryStation, hbusy, if_true, if_pos hr, htrav,
            hscr, hq] at h
          obtain ⟨h1, h2, h3⟩ := by simpa using h
          subst h1 h2 h3
          refine ⟨by simp [stationOk], by simp [hbusy], ?_⟩
          simp [holder, htrav]; omega
        | cons t1 rest =>
          simp only [processPrimaryStation, hbusy, if_true, if_pos hr, htrav,
            hscr, hq] at h
          cases htn : truncatedNormal m mu1 sigma1 g fuel c.rngIndex fuel with
          | none => rw [htn] at h; simp at h
          | some v =>
            rcases v with ⟨sv, n1⟩
            rw [htn] at h
            obtain ⟨h1, h2, h3⟩ := by simpa using h
            subst h1 h2 h3
            refine ⟨by simp [stationOk], by simp [hbusy], ?_⟩
            simp [holder, htrav]; omega
    · cases hq : st.queue with
      | nil =>
        simp only [processPrimaryStation, hbusy, if_true, if_neg hr, hq] at h
        obtain ⟨h1, h2, h3⟩ := by simpa using h
        subst h1 h2 h3
        refine ⟨by simp [stationOk, hbusy, hok.symm], by simp [hbusy], by simp [holder]⟩
      | cons t1 rest =>
        simp only [processPrimaryStation, hbusy, if_true, if_neg hr, hq] at h
        obtain ⟨h1, h2, h3⟩ := by simpa using h
        subst h1 h2 h3
        refine ⟨by simp [stationOk, hbusy, hok.symm], by simp [hbusy], by simp [holder]⟩

theorem processSenior_spec (m : MathFns) (g : ℕ → ℚ) (fuel : ℕ)
    (mu2 sigma2 : ℚ) (st : Station) (sbt : ℚ) (svc : List ℚ) (n : ℕ)
    (st' : Station) (sbt' : ℚ) (svc' : List ℚ) (n' : ℕ) (hok : stationOk st)
    (h : processSenior m g fuel mu2 sigma2 st sbt svc n =
      some (st', sbt', svc', n')) :
    stationOk st' ∧ sbt' = (if st.busy then sbt + stepSize else sbt) := by
  rw [stationOk] at hok
  cases hbusy : st.busy with
  | false =>
    rw [hbusy] at hok
    cases hq : st.queue with
    | nil =>
      simp only [processSenior, hbusy, Bool.false_eq_true, if_false, hq] at h
      obtain ⟨h1, h2, h3, h4⟩ := by simpa using h
      subst h1 h2
      exact ⟨by rw [stationOk, hbusy]; exact hok, by simp [hbusy]⟩
    | cons t1 rest =>
      simp only [processSenior, hbusy, Bool.false_eq_true, if_false, hq] at h
      cases htn : truncatedNormal m mu2 sigma2 g fuel n fuel with
      | none => rw [htn] at h; simp at h
      | some v =>
        rcases v with ⟨sv, n1⟩
        rw [htn] at h
        obtain ⟨h1, h2, h3, h4⟩ := by simpa using h
        subst h1 h2
        exact ⟨by simp [stationOk], by simp [hbusy]⟩
  | true =>
    rw [hbusy] at hok
    by_cases hr : st.remainingTime - stepSize ≤ 0
    · cases hq : st.queue with
      | nil =>
        simp only [processSenior, hbusy, if_true, if_pos hr, hq] at h
        obtain ⟨h1, h2, h3, h4⟩ := by simpa using h
        subst h1 h2
        exact ⟨by simp [stationOk], by simp [hbusy]⟩
      | cons t1 rest =>
        simp only [processSenior, hbusy, if_true, if_pos hr, hq] at h
        cases htn : truncatedNormal m mu2 sigma2 g fuel n fuel with
        | none => rw [htn] at h; simp at h
        | some v =>
          rcases v with ⟨sv, n1⟩
          rw [htn] at h
          obtain ⟨h1, h2, h3, h4⟩ := by simpa using h
          subst h1 h2
          exact ⟨by simp [stationOk], by simp [hbusy]⟩
    · cases hq : st.queue with
      | nil =>
        simp only [processSenior, hbusy, if_true, if_neg hr, hq] at h
        obtain ⟨h1, h2, h3, h4⟩ := by simpa using h
        subst h1 h2
        exact ⟨by simp [stationOk, hbusy, hok.symm], by simp [hbusy]⟩
      | cons t1 rest =>
        simp only [processSenior, hbusy, if_true, if_neg hr, hq] at h
        obtain ⟨h1, h2, h3, h4⟩ := by simpa using h
        subst h1 h2
        exact ⟨by simp [stationOk, hbusy, hok.symm], by simp [hbusy]⟩

theorem PairInv_step (step : ℕ) (st st' : Station) (bt bt' : ℚ)
    (hbt : bt' = if st.busy then bt + stepSize else bt)
    (h : PairInv step (st, bt)) : PairInv (step + 1) (st', bt') := by
  obtain ⟨h0, hd⟩ := h
  simp only [PairInv] at *
  cases hb : st.busy with
  | true =>
    rw [hbt, if_pos (by rw [hb])]
    constructor
    · norm_num [stepSize]
      linarith
    · left
      rcases hd with hle | ⟨hz, hfalse⟩
      · push_cast
        norm_num [stepSize]
        linarith
      · rw [hb] at hfalse
        exact absurd hfalse (by simp)
  | false =>
    rw [hbt, if_neg (by rw [hb]; simp)]
    refine ⟨h0, Or.inl ?_⟩
    rcases hd with hle | ⟨hz, _⟩
    · push_cast
      linarith
    · rw [hz]
      push_cast
      norm_num

theorem SeniorInv_step (step : ℕ) (st st' : Station) (sbt sbt' : ℚ)
    (hbt : sbt' = if st.busy then sbt + stepSize else sbt)
    (h : SeniorInv step st sbt) : SeniorInv (step + 1) st' sbt' := by
  have := PairInv_step step st st' sbt sbt' hbt (by exact h)
  exact this

theorem processPrimaries_spec (m : MathFns) (g : ℕ → ℚ) (fuel : ℕ)
    (mu1 sigma1 currentTime : ℚ) (step : ℕ) :
    ∀ (prs : List (Station × ℚ)) (c : PrimCtx) (out : List (Station × ℚ))
      (c' : PrimCtx),
      (∀ pr ∈ prs, stationOk pr.1) →
      processPrimaries m g fuel mu1 sigma1 currentTime prs c = some (out, c') →
      (∀ pr ∈ out, stationOk pr.1) ∧
      out.length = prs.length ∧
      (c'.waitingTimes.length + c.completed + holdersP prs =
        c.waitingTimes.length + c'.completed + holdersP out) ∧
      ((∀ pr ∈ prs, PairInv step pr) → ∀ pr ∈ out, PairInv (step + 1) pr) := by
  intro prs
  induction prs with
  | nil =>
    intro c out c' _ h
    simp only [processPrimaries] at h
    obtain ⟨h1, h2⟩ := by simpa using h
    subst h1 h2
    exact ⟨by simp, rfl, by simp, by simp⟩
  | cons pr rest ih =>
    intro c out c' hall h
    rcases pr with ⟨st, bt⟩
    simp only [processPrimaries] at h
    cases hps : processPrimaryStation m g fuel mu1 sigma1 currentTime st bt c with
    | none => rw [hps] at h; simp at h
    | some v =>
      rcases v with ⟨st1, bt1, c1⟩
      simp only [hps] at h
      cases hpp : processPrimaries m g fuel mu1 sigma1 currentTime rest c1 with
      | none => rw [hpp] at h; simp at h
      | some w =>
        rcases w with ⟨pairs, c2⟩
        rw [hpp] at h
        obtain ⟨h1, h2⟩ := by simpa using h
        subst h1 h2
        have hok : stationOk st := hall (st, bt) (by simp)
        obtain ⟨hok1, hbt1, hacc1⟩ := processPrimaryStation_spec m g fuel mu1
          sigma1 currentTime st bt c st1 bt1 c1 hok hps
        obtain ⟨hall2, hlen2, hacc2, hpi2⟩ := ih c1 pairs c2
          (fun q hq => hall q (List.mem_cons_of_mem _ hq)) hpp
        refine ⟨?_, ?_, ?_, ?_⟩
        · intro q hq
          rcases List.mem_cons.mp hq with h | h
          · rw [h]; exact hok1
          · exact hall2 q h
        · simp [hlen2]
        · have e1 : holdersP ((st, bt) :: rest) = holder st + holdersP rest := by
            simp [holdersP, holder, List.countP_cons]
            by_cases hsome : st.traveler.isSome <;> simp [hsome]; omega
          have e2 : holdersP ((st1, bt1) :: pairs) = holder st1 + holdersP pairs := by
            simp [holdersP, holder, List.countP_cons]
            by_cases hsome : st1.traveler.isSome <;> simp [hsome]; omega
          rw [e1, e2]
          omega
        · intro hpiall q hq
          rcases List.mem_cons.mp hq with h | h
          · rw [h]
            exact PairInv_step step st st1 bt bt1 hbt1
              (hpiall (st, bt) (by simp))
          · exact hpi2 (fun x hx => hpiall x (List.mem_cons_of_mem _ hx)) q h

theorem zip_map_fst_snd (l : List (Station × ℚ)) :
    (l.map Prod.fst).zip (l.map Prod.snd) = l := by
  induction l with
  | nil => rfl
  | cons x xs ih => cases x; simp [ih]

theorem countP_map_fst (l : List (Station × ℚ)) :
    holdersP l = countHolders (l.map Prod.fst) := by
  rw [holdersP, countHolders, List.countP_map]
  rfl

theorem holdersP_zip (stations : List Station) :
    ∀ bts : List ℚ, stations.length = bts.length →
      holdersP (stations.zip bts) = countHolders stations := by
  induction stations with
  | nil => intro bts _; simp [holdersP, countHolders]
  | cons st rest ih =>
    intro bts hlen
    cases bts with
    | nil => simp at hlen
    | cons b bs =>
      have hlen2 : rest.length = bs.length := by simpa using hlen
      simp only [List.zip_cons_cons, holdersP, countHolders,
        List.countP_cons]
      have := ih bs hlen2
      rw [holdersP, countHolders] at this
      rw [this]

theorem get?_mem_stations (stations : List Station) (idx : ℕ) (st : Station)
    (hget : stations.get? idx = some st) : st ∈ stations := by
  induction stations generalizing idx with
  | nil => simp at hget
  | cons x xs ih =>
    cases idx with
    | zero =>
      simp only [List.get?] at hget
      rw [List.mem_cons]
      left
      exact (Option.some_injective _ hget).symm
    | succ j => exact List.mem_cons_of_mem _ (ih j hget)

theorem stationOk_set_queue (stations : List Station) (idx : ℕ) (st : Station)
    (q : List Traveler) (hget : stations.get? idx = some st)
    (hall : ∀ x ∈ stations, stationOk x) :
    ∀ x ∈ stations.set idx { st with queue := q }, stationOk x := by
  intro x hx
  rcases List.mem_or_eq_of_mem_set hx with h | h
  · exact hall x h
  · rw [h]
    have hmem := get?_mem_stations stations idx st hget
    have := hall st hmem
    simpa [stationOk] using this

theorem countHolders_set_queue (stations : List Station) :
    ∀ (idx : ℕ) (st : Station) (q : List Traveler),
      stations.get? idx = some st →
      countHolders (stations.set idx { st with queue := q }) =
        countHolders stations := by
  induction stations with
  | nil => intro idx st q hget; simp at hget
  | cons x xs ih =>
    intro idx st q hget
    cases idx with
    | zero =>
      simp only [List.get?] at hget
      have hx : x = st := Option.some_injective _ hget
      subst hx
      simp [countHolders, List.countP_cons]
    | succ j =>
      simp only [List.get?] at hget
      simp only [List.set, countHolders, List.countP_cons]
      have := ih j st q hget
      rw [countHolders] at this
      rw [this]
      rfl

theorem pairInv_zip_set_queue (step : ℕ) (stations : List Station) :
    ∀ (bts : List ℚ) (idx : ℕ) (st : Station) (q : List Traveler),
      stations.get? idx = some st →
      (∀ pr ∈ stations.zip bts, PairInv step pr) →
      ∀ pr ∈ (stations.set idx { st with queue := q }).zip bts,
        PairInv step pr := by
  induction stations with
  | nil => intro bts idx st q hget; simp at hget
  | cons x xs ih =>
    intro bts idx st q hget hall pr hpr
    cases bts with
    | nil => simp at hpr
    | cons b bs =>
      cases idx with
      | zero =>
        simp only [List.get?] at hget
        have hx : x = st := Option.some_injective _ hget
        simp only [List.set, List.zip_cons_cons, List.mem_cons] at hpr
        rcases hpr with h | h
        · have h0 := hall (x, b) (by simp)
          rw [h, ← hx]
          simpa [PairInv] using h0
        · exact hall pr (List.mem_cons_of_mem _ h)
      | succ j =>
        simp only [List.get?] at hget
        simp only [List.set, List.zip_cons_cons, List.mem_cons] at hpr
        rcases hpr with h | h
        · exact hall pr (by rw [h]; simp)
        · exact ih bs j st q hget
            (fun x hx => hall x (List.mem_cons_of_mem _ hx)) pr h

theorem mem_zip_right_exists (stations : List Station) :
    ∀ (bts : List ℚ) (b : ℚ), stations.length = bts.length → b ∈ bts →
      ∃ a, (a, b) ∈ stations.zip bts := by
  induction stations with
  | nil =>
    intro bts b hlen hb
    cases bts with
    | nil => simp at hb
    | cons c cs => simp at hlen
  | cons x xs ih =>
    intro bts b hlen hb
    cases bts with
    | nil => simp at hb
    | cons c cs =>
      rcases List.mem_cons.mp hb with h | h
      · exact ⟨x, by simp [h]⟩
      · obtain ⟨a, ha⟩ := ih cs b (by simpa using hlen) h
        exact ⟨a, List.mem_cons_of_mem _ ha⟩

theorem simStepCore_inv (m : MathFns) (p : SimParams) (g : ℕ → ℚ)
    (fuel step : ℕ) (s : SimState) (stations1 : List Station) (tta1 : ℚ)
    (rng1 : ℕ) (s' : SimState)
    (hallok : ∀ st ∈ stations1, stationOk st)
    (hsen : stationOk s.seniorStation)
    (hcons : s.waitingTimes.length =
      s.primaryCompleted + countHolders stations1)
    (hlen1 : s.stationBusyTime.length = stations1.length)
    (hpair : ∀ pr ∈ stations1.zip s.stationBusyTime, PairInv step pr)
    (hsinv : SeniorInv step s.seniorStation s.seniorBusyTime)
    (h : simStepCore m p g fuel step s stations1 tta1 rng1 = some s') :
    StateInv (step + 1) s' := by
  simp only [simStepCore] at h
  cases hpp : processPrimaries m g fuel p.mu1 p.sigma1 ((step : ℚ) * stepSize)
      (stations1.zip s.stationBusyTime)
      { seniorQueue := s.seniorStation.queue, waitingTimes := s.waitingTimes,
        primaryServiceTimes := s.primaryServiceTimes, rngIndex := rng1,
        completed := s.primaryCompleted } with
  | none => rw [hpp] at h; simp at h
  | some v =>
    rcases v with ⟨pairs, ctx⟩
    simp only [hpp] at h
    cases hsn : processSenior m g fuel p.mu2 p.sigma2
        { s.seniorStation with queue := ctx.seniorQueue }
        s.seniorBusyTime s.seniorServiceTimes ctx.rngIndex with
    | none => rw [hsn] at h; simp at h
    | some w =>
      rcases w with ⟨senior2, sbt2, svc2, rng2⟩
      simp only [hsn] at h
      have hX := Option.some_injective _ h
      subst hX
      have hzipok : ∀ pr ∈ stations1.zip s.stationBusyTime, stationOk pr.1 := by
        intro pr hpr
        exact hallok pr.1 (List.of_mem_zip hpr).1
      obtain ⟨hall2, hlen2, hacc, hpi⟩ := processPrimaries_spec m g fuel
        p.mu1 p.sigma1 ((step : ℚ) * stepSize) step
        (stations1.zip s.stationBusyTime)
        { seniorQueue := s.seniorStation.queue, waitingTimes := s.waitingTimes,
          primaryServiceTimes := s.primaryServiceTimes, rngIndex := rng1,
          completed := s.primaryCompleted } pairs ctx hzipok hpp
      have hsenok1 : stationOk { s.seniorStation with queue := ctx.seniorQueue } := by
        simpa [stationOk] using hsen
      obtain ⟨hsok2, hsbt2⟩ := processSenior_spec m g fuel p.mu2 p.sigma2
        { s.seniorStation with queue := ctx.seniorQueue }
        s.seniorBusyTime s.seniorServiceTimes ctx.rngIndex
        senior2 sbt2 svc2 rng2 hsenok1 hsn
      have hzlen : stations1.length = s.stationBusyTime.length := hlen1.symm
      have hholz : holdersP (stations1.zip s.stationBusyTime) =
          countHolders stations1 := holdersP_zip stations1 s.stationBusyTime hzlen
      refine ⟨?_, ?_, ?_, ?_, ?_, ?_⟩
      · intro st hst
        simp only [List.mem_map] at hst
        obtain ⟨pr, hpr, heq⟩ := hst
        rw [← heq]
        exact hall2 pr hpr
      · exact hsok2
      · show ctx.waitingTimes.length =
          ctx.completed + countHolders (pairs.map Prod.fst)
        rw [← countP_map_fst]
        simp only [hholz] at hacc
        omega
      · simp
      · show ∀ pr ∈ (pairs.map Prod.fst).zip (pairs.map Prod.snd),
          PairInv (step + 1) pr
        rw [zip_map_fst_snd]
        exact hpi hpair
      · show SeniorInv (step + 1) senior2 sbt2
        refine SeniorInv_step step { s.seniorStation with queue := ctx.seniorQueue }
          senior2 s.seniorBusyTime sbt2 hsbt2 ?_
        simpa [SeniorInv] using hsinv

theorem simStep_inv (m : MathFns) (p : SimParams) (g : ℕ → ℚ)
    (fuel step : ℕ) (s s' : SimState) (hinv : StateInv step s)
    (h : simStep m p g fuel step s = some s') : StateInv (step + 1) s' := by
  obtain ⟨hprim, hsen, hcons, hlen, hpair, hsinv⟩ := hinv
  simp only [simStep] at h
  by_cases harr : s.timeToNextArrival - stepSize ≤ 0
  · simp only [if_pos harr] at h
    cases hget : s.primaryStations.get?
        (shortestQueueIndex (s.primaryStations.map (fun st => st.queue.length))) with
    | none =>
      simp only [hget] at h
      cases hexp : expSample m (p.arrivalRate / 60) (g (s.rngIndex + 1)) with
      | none => rw [hexp] at h; simp at h
      | some t' =>
        simp only [hexp] at h
        exact simStepCore_inv m p g fuel step s s.primaryStations t'
          (s.rngIndex + 2) s' hprim hsen hcons hlen hpair hsinv h
    | some st0 =>
      simp only [hget] at h
      cases hexp : expSample m (p.arrivalRate / 60) (g (s.rngIndex + 1)) with
      | none => rw [hexp] at h; simp at h
      | some t' =>
        simp only [hexp] at h
        refine simStepCore_inv m p g fuel step s _ t' (s.rngIndex + 2) s'
          ?_ hsen ?_ ?_ ?_ hsinv h
        · exact stationOk_set_queue s.primaryStations _ st0 _ hget hprim
        · rw [countHolders_set_queue s.primaryStations _ st0 _ hget]
          exact hcons
        · rw [List.length_set]
          exact hlen
        · exact pairInv_zip_set_queue step s.primaryStations s.stationBusyTime
            _ st0 _ hget hpair
  · simp only [if_neg harr] at h
    exact simStepCore_inv m p g fuel step s s.primaryStations
      (s.timeToNextArrival - stepSize) s.rngIndex s'
      hprim hsen hcons hlen hpair hsinv h

theorem countHolders_replicate (n : ℕ) :
    countHolders (List.replicate n
      { busy := false, remainingTime := 0, traveler := none, queue := [] }) = 0 := by
  induction n with
  | zero => simp [countHolders]
  | succ k ih =>
    rw [List.replicate_succ]
    simp only [countHolders, List.countP_cons] at *
    simp [ih]

theorem initState_inv (p : SimParams) (t0 : ℚ) : StateInv 0 (initState p t0) := by
  refine ⟨?_, ?_, ?_, ?_, ?_, ?_⟩
  · intro st hst
    have := List.eq_of_mem_replicate hst
    rw [this, stationOk]
    rfl
  · rw [stationOk]; rfl
  · show (0 : ℕ) = 0 + countHolders (List.replicate p.numStations _)
    rw [countHolders_replicate]
  · simp [initState]
  · intro pr hpr
    have h1 := (List.of_mem_zip hpr).1
    have h2 := (List.of_mem_zip hpr).2
    have e1 := List.eq_of_mem_replicate h1
    have e2 := List.eq_of_mem_replicate h2
    refine ⟨by rw [e2], Or.inr ⟨e2, by rw [e1]⟩⟩
  · exact ⟨le_refl 0, Or.inr ⟨rfl, rfl⟩⟩

theorem runLoop_inv (m : MathFns) (p : SimParams) (g : ℕ → ℚ) (fuel : ℕ) :
    ∀ (k step : ℕ) (s s' : SimState), StateInv step s →
      runLoop m p g fuel step k s = some s' → StateInv (step + k) s' := by
  intro k
  induction k with
  | zero =>
    intro step s s' hinv h
    rw [runLoop] at h
    have := Option.some_injective _ h
    rw [← this]
    exact hinv
  | succ k ih =>
    intro step s s' hinv h
    rw [runLoop] at h
    cases hstep : simStep m p g fuel step s with
    | none => rw [hstep] at h; simp at h
    | some s1 =>
      rw [hstep] at h
      have h1 := simStep_inv m p g fuel step s s1 hinv hstep
      have h2 := ih (step + 1) s1 s' h1 h
      have : step + 1 + k = step + (k + 1) := by omega
      rwa [this] at h2

/-- C8: after every number `k` of simulation steps from the initial
all-idle state, every primary station and the senior station satisfy: the
busy flag is set exactly when the station's traveler slot is non-null. -/
theorem stations_busy_iff_holding (m : MathFns) (p : SimParams) (g : ℕ → ℚ)
    (fuel : ℕ) (t0 : ℚ) (k : ℕ) (s : SimState)
    (h : runLoop m p g fuel 0 k (initState p t0) = some s) :
    (∀ st ∈ s.primaryStations, st.busy = st.traveler.isSome) ∧
    s.seniorStation.busy = s.seniorStation.traveler.isSome := by
  have hs := runLoop_inv m p g fuel k 0 (initState p t0) s
    (initState_inv p t0) h
  exact ⟨fun st hst => hs.primOk st hst, hs.seniorOk⟩

/-- Witness for C8: a concrete one-step run in which the single primary
station is busy and holds a traveler, and the senior station is idle and
empty. -/
theorem stations_busy_iff_holding_witness :
    (∀ st ∈ smallRunFinalState.primaryStations,
      st.busy = st.traveler.isSome) ∧
    smallRunFinalState.seniorStation.busy =
      smallRunFinalState.seniorStation.traveler.isSome :=
  stations_busy_iff_holding quickArrivalMathFns smallRunParams demoStream 3
    (1/100) 1 smallRunFinalState
    (by norm_num [runLoop, simStep, simStepCore, initState, expSample,
      logTotal, shortestQueueIndex, processPrimaries, processPrimaryStation,
      processSenior, truncatedNormal, boxMullerDraw, sampleNonzero, stepSize,
      quickArrivalMathFns, smallRunParams, demoStream, smallRunFinalState,
      List.enum])

/-- C3 (amended): for every completed run, the number of waiting-time
samples equals the number of travelers that completed primary service plus
the number still in primary service at the end of the horizon. -/
theorem waiting_samples_conservation (m : MathFns) (p : SimParams)
    (g : ℕ → ℚ) (fuel : ℕ) (s : SimState)
    (h : runSimulationState m p g fuel = some s) :
    s.waitingTimes.length =
      s.primaryCompleted + countHolders s.primaryStations := by
  rw [runSimulationState] at h
  cases hexp : expSample m (p.arrivalRate / 60) (g 0) with
  | none => rw [hexp] at h; simp at h
  | some t0 =>
    simp only [hexp] at h
    exact (runLoop_inv m p g fuel (totalSteps p) 0 (initState p t0) s
      (initState_inv p t0) h).conserve

/-- Witness for C3 (amended) at the concrete one-step run: one sample,
zero completions, one traveler in service. -/
theorem waiting_samples_conservation_witness :
    smallRunFinalState.waitingTimes.length =
      smallRunFinalState.primaryCompleted +
        countHolders smallRunFinalState.primaryStations :=
  waiting_samples_conservation quickArrivalMathFns smallRunParams demoStream 3
    smallRunFinalState
    (by norm_num [runSimulationState, runLoop, simStep, simStepCore,
      totalSteps, initState, expSample, logTotal, shortestQueueIndex,
      processPrimaries, processPrimaryStation, processSenior,
      truncatedNormal, boxMullerDraw, sampleNonzero, stepSize,
      quickArrivalMathFns, smallRunParams, demoStream, smallRunFinalState,
      List.enum])

/-- C3 fails on the code as stated: in the concrete run below one traveler
starts primary service (recording a waiting-time sample) but is still in
service when the horizon ends, so 0 travelers completed primary service
while 1 waiting-time sample was recorded. -/
theorem waiting_samples_counterexample :
    (runSimulationState quickArrivalMathFns smallRunParams demoStream 3).map
      (fun s => (s.primaryCompleted, s.waitingTimes.length)) = some (0, 1) ∧
    (0 : ℕ) ≠ 1 := by
  refine ⟨?_, by norm_num⟩
  norm_num [runSimulationState, runLoop, simStep, simStepCore, totalSteps,
    initState, expSample, logTotal, shortestQueueIndex, processPrimaries,
    processPrimaryStation, processSenior, truncatedNormal, boxMullerDraw,
    sampleNonzero, stepSize, quickArrivalMathFns, smallRunParams, demoStream,
    List.enum]

/-- C10: the exponential inter-arrival sampling applies the logarithm to a
raw uniform draw with no zero-resampling (unlike `truncatedNormal`), so
with a legal stream whose resampling draw is exactly 0 the embedding's
logarithm-undefined error branch is reached and the run returns `none`. -/
theorem expSample_zero_draw_reachable :
    runSimulation quickArrivalMathFns smallRunParams zeroAtTwoStream 3 =
      none ∧
    zeroAtTwoStream 2 = 0 ∧
    (∀ i, 0 ≤ zeroAtTwoStream i ∧ zeroAtTwoStream i < 1) := by
  refine ⟨?_, by norm_num [zeroAtTwoStream], ?_⟩
  · norm_num [runSimulation, runSimulationState, runLoop, simStep,
      simStepCore, totalSteps, initState, expSample, logTotal,
      shortestQueueIndex, processPrimaries, processPrimaryStation,
      processSenior, truncatedNormal, boxMullerDraw, sampleNonzero, stepSize,
      quickArrivalMathFns, smallRunParams, zeroAtTwoStream, List.enum]
  · intro i
    by_cases hi : i = 2 <;> simp [zeroAtTwoStream, hi]; norm_num

theorem busyTime_div_bound (T bt : ℚ) (hT : 0 < T) (h0 : 0 ≤ bt)
    (hd : bt * 10 + 1 ≤ (((Int.ceil (T / stepSize)).toNat : ℕ) : ℚ) ∨ bt = 0) :
    0 ≤ bt / T ∧ bt / T ≤ 1 := by
  refine ⟨div_nonneg h0 (le_of_lt hT), ?_⟩
  rcases hd with hle | hz
  · have hts : T / stepSize = 10 * T := by
      rw [stepSize]
      ring
    rw [hts] at hle
    have hcpos : (0 : ℤ) ≤ Int.ceil ((10 : ℚ) * T) := by
      have : (0 : ℚ) < 10 * T := by linarith
      exact le_of_lt (Int.ceil_pos.mpr this)
    have hle2 : bt * 10 + 1 ≤ ((Int.ceil ((10 : ℚ) * T) : ℤ) : ℚ) := by
      rw [← Int.toNat_of_nonneg hcpos]
      exact_mod_cast hle
    have hclt : ((Int.ceil ((10 : ℚ) * T) : ℤ) : ℚ) < 10 * T + 1 :=
      Int.ceil_lt_add_one (10 * T)
    have hbtT : bt ≤ T := by linarith
    exact (div_le_one hT).mpr hbtT
  · rw [hz]
    simp

/-- C6: for every completed run with positive `simulationTime`, every entry
of `perStationUtilization` and the value `seniorUtilization` lie in the
interval [0, 1]: accumulated busy time never exceeds the simulated
horizon. -/
theorem utilization_in_unit_interval (m : MathFns) (p : SimParams)
    (g : ℕ → ℚ) (fuel : ℕ) (res : SimResult) (hT : 0 < p.simulationTime)
    (h : runSimulation m p g fuel = some res) :
    (∀ u ∈ res.perStationUtilization, 0 ≤ u ∧ u ≤ 1) ∧
    (0 ≤ res.seniorUtilization ∧ res.seniorUtilization ≤ 1) := by
  rw [runSimulation] at h
  cases hrs : runSimulationState m p g fuel with
  | none => rw [hrs] at h; simp at h
  | some s =>
    rw [hrs] at h
    simp only [Option.map_some'] at h
    have hres := Option.some_injective _ h
    rw [← hres]
    rw [runSimulationState] at hrs
    cases hexp : expSample m (p.arrivalRate / 60) (g 0) with
    | none => rw [hexp] at hrs; simp at hrs
    | some t0 =>
      simp only [hexp] at hrs
      have hs := runLoop_inv m p g fuel (totalSteps p) 0 (initState p t0) s
        (initState_inv p t0) hrs
      have hsteps : (0 : ℕ) + totalSteps p = totalSteps p := by omega
      rw [hsteps] at hs
      constructor
      · intro u hu
        simp only [buildResult, List.mem_map] at hu
        obtain ⟨bt, hbt, hueq⟩ := hu
        obtain ⟨a, ha⟩ := mem_zip_right_exists s.primaryStations
          s.stationBusyTime bt hs.lenEq.symm hbt
        obtain ⟨h0, hd⟩ := hs.pairInv (a, bt) ha
        rw [← hueq]
        exact busyTime_div_bound p.simulationTime bt hT h0
          (by rcases hd with h1 | h2
              · left; exact h1
              · right; exact h2.1)
      · obtain ⟨h0, hd⟩ := hs.seniorInv
        have := busyTime_div_bound p.simulationTime s.seniorBusyTime hT h0
          (by rcases hd with h1 | h2
              · left; exact h1
              · right; exact h2.1)
        simpa [buildResult] using this

/-- Witness for C6 at the concrete one-step run: the single station
utilization `0` and senior utilization `0` lie in [0, 1]. -/
theorem utilization_in_unit_interval_witness :
    (∀ u ∈ (buildResult smallRunParams smallRunFinalState).perStationUtilization,
      0 ≤ u ∧ u ≤ 1) ∧
    (0 ≤ (buildResult smallRunParams smallRunFinalState).seniorUtilization ∧
      (buildResult smallRunParams smallRunFinalState).seniorUtilization ≤ 1) :=
  utilization_in_unit_interval quickArrivalMathFns smallRunParams demoStream 3
    (buildResult smallRunParams smallRunFinalState)
    (by norm_num [smallRunParams])
    (by norm_num [runSimulation, runSimulationState, runLoop, simStep,
      simStepCore, totalSteps, initState, expSample, logTotal,
      shortestQueueIndex, processPrimaries, processPrimaryStation,
      processSenior, truncatedNormal, boxMullerDraw, sampleNonzero, stepSize,
      quickArrivalMathFns, smallRunParams, demoStream, smallRunFinalState,
      List.enum])
